import Mathlib

/-!
Verification of the patch-application engine of `src/main.py` (`apply_fixes`).

The embedding models, character-for-character, the slice of Python that
`apply_fixes` uses: `readlines`/`splitlines(True)` restricted to the `'\n'`
terminator, `str.endswith('\n')`, Python indexing with negative indices
(`original_code_lines[end]`, raising `IndexError` out of range), Python slice
assignment `modified_code_lines[start:end+1] = replacement` (negative bounds
resolved against the length, out-of-range bounds clamped), `dict` access
(`fix['lineNumber']` raising `KeyError` when the key is missing,
`fix.get('endLineNumber', start + 1)` defaulting), and the stable
`sorted(fixes, key=..., reverse=True)`.  Strings are lists of characters;
fallible steps return `Except PyErr`.
-/

namespace MidnightAI

/-- A line of text: the list of its characters (a Python `str`). -/
abbrev Line := List Char

/-- A document: the list of lines produced by `f.readlines()`. -/
abbrev Doc := List Line

/-- `s.endswith('\n')`. -/
def endsWithNL (s : Line) : Bool := s.getLast? == some '\n'

/-- `str.splitlines(True)` (and `readlines`), keeping each `'\n'` terminator.
A trailing segment without a terminator is kept as a final line. -/
def splitlines : List Char → List Line
  | [] => []
  | c :: cs =>
    if c = '\n' then ['\n'] :: splitlines cs
    else
      match splitlines cs with
      | [] => [[c]]
      | l :: ls => (c :: l) :: ls

/-- Python index resolution: a negative index counts from the end. -/
def pyIdx (n : Nat) (i : Int) : Int := if i < 0 then i + n else i

/-- Python indexing `l[i]` with negative-index support; `none` is `IndexError`. -/
def pyGet (l : Doc) (i : Int) : Option Line :=
  if 0 ≤ pyIdx l.length i then l[(pyIdx l.length i).toNat]? else none

/-- Resolution of one slice boundary against a list of length `n`
(Python semantics: negative bounds count from the end, everything clamped). -/
def sliceIdx (n : Nat) (i : Int) : Nat :=
  if i < 0 then (i + n).toNat else min i.toNat n

/-- Python slice assignment `m[a:b] = r`. -/
def pySetSlice (m : List Line) (a b : Int) (r : List Line) : List Line :=
  m.take (sliceIdx m.length a) ++ r ++
    m.drop (max (sliceIdx m.length a) (sliceIdx m.length b))

/-- One fix object from the model's JSON array, with the fields `apply_fixes`
reads.  `Option` marks a field that may be absent. -/
structure Fix where
  lineNumber : Option Int
  endLineNumber : Option Int
  suggestedCode : List Char
deriving DecidableEq, Repr

/-- The sort key `x['lineNumber']` (only meaningful when the key is present;
`apply_fixes` raises `KeyError` before using it otherwise). -/
def fixStartL (f : Fix) : Int := f.lineNumber.getD 0

/-- The effective 1-based inclusive end line: `endLineNumber`, defaulting to
the start line (the code computes `fix.get('endLineNumber', start + 1) - 1`
with `start = lineNumber - 1`). -/
def fixEndL (f : Fix) : Int := f.endLineNumber.getD (fixStartL f)

/-- Ordering used by `sorted(fixes, key=lambda x: x['lineNumber'], reverse=True)`:
`f` may come before `g` iff `g`'s key is at most `f`'s key. -/
def fixDescLE (f g : Fix) : Prop := fixStartL g ≤ fixStartL f

instance : DecidableRel fixDescLE := fun f g => Int.decLe (fixStartL g) (fixStartL f)

instance : IsTotal Fix fixDescLE := ⟨fun f g => Int.le_total (fixStartL g) (fixStartL f)⟩

instance : IsTrans Fix fixDescLE := ⟨fun _ _ _ h1 h2 => le_trans h2 h1⟩

/-- The stable descending sort of the fixes list (Python's `sorted` is stable;
so is insertion sort). -/
def sortFixesDesc (fixes : List Fix) : List Fix := List.insertionSort fixDescLE fixes

/-- The two Python exceptions `apply_fixes` can raise while patching. -/
inductive PyErr where
  | keyError
  | indexError
deriving DecidableEq, Repr

/-- Lines 80-86 of `src/main.py` for one fix, given `start` and `end` already
computed: split the suggested code into lines, append `'\n'` to the final
replacement line when it lacks one but `original_code_lines[end]` has one
(the indexing may raise `IndexError`), then splice. -/
def spliceWithInherit (orig m : Doc) (start e : Int) (code : List Char) :
    Except PyErr Doc :=
  match (splitlines code).getLast? with
  | none => .ok (pySetSlice m start (e + 1) (splitlines code))
  | some last =>
    if endsWithNL last then .ok (pySetSlice m start (e + 1) (splitlines code))
    else
      match pyGet orig e with
      | none => .error .indexError
      | some ol =>
        .ok (pySetSlice m start (e + 1)
          (if endsWithNL ol then (splitlines code).dropLast ++ [last ++ ['\n']]
           else splitlines code))

/-- One iteration of the `for fix in sorted(...)` loop body:
`start = fix['lineNumber'] - 1`, `end = fix.get('endLineNumber', start + 1) - 1`. -/
def applyOneFix (orig m : Doc) (f : Fix) : Except PyErr Doc :=
  match f.lineNumber with
  | none => .error .keyError
  | some ln =>
    spliceWithInherit orig m (ln - 1) (f.endLineNumber.getD ((ln - 1) + 1) - 1)
      f.suggestedCode

/-- The patched line sequence `apply_fixes` computes before the confirmation
prompt: `sorted` evaluates the key of every element first (raising `KeyError`
if one is missing), then the loop splices each fix in descending order. -/
def patchLines (orig : Doc) (fixes : List Fix) : Except PyErr Doc :=
  if fixes.all (fun f => f.lineNumber.isSome) then
    (sortFixesDesc fixes).foldlM (applyOneFix orig) orig
  else .error .keyError

/-- How a call to `apply_fixes` ends. -/
inductive ApplyOutcome where
  | noFixes
  | applied
  | aborted
  | crashed (e : PyErr)
deriving DecidableEq, Repr

/-- Whole-call model of `apply_fixes`: takes the on-disk file content, the
fixes list and the answer the user would give to the confirmation prompt;
returns the on-disk content after the call together with the outcome.
The file is written (with the concatenated modified lines) only in the
confirmed branch; an exception propagates before the prompt is ever shown. -/
def apply_fixes (content : List Char) (fixes : List Fix) (confirm : Bool) :
    List Char × ApplyOutcome :=
  if fixes.isEmpty then (content, .noFixes)
  else
    match patchLines (splitlines content) fixes with
    | .error ex => (content, .crashed ex)
    | .ok modified =>
      if confirm then (modified.flatten, .applied) else (content, .aborted)

/-- The terminator-inheritance step of lines 83-85, as a pure function of the
replacement lines and the original line at `end`. -/
def inheritNL (repl : List Line) (ol : Line) : List Line :=
  match repl.getLast? with
  | none => repl
  | some last =>
    if !endsWithNL last && endsWithNL ol then repl.dropLast ++ [last ++ ['\n']]
    else repl

/-- An abstract edit: 0-based inclusive line range against the original
document, plus the replacement lines. -/
structure Edit where
  s : Nat
  e : Nat
  repl : List Line
deriving DecidableEq, Repr

/-- The abstract edit a (key-carrying) fix denotes. -/
def toEdit (f : Fix) : Edit :=
  ⟨(fixStartL f - 1).toNat, (fixEndL f - 1).toNat, splitlines f.suggestedCode⟩

/-- One in-range splice as `apply_fixes` performs it: indices and the
terminator-inheritance lookup refer to the original document `orig`,
the splice acts on the working document `m`. -/
def stepCode (orig m : Doc) (ed : Edit) : Doc :=
  m.take ed.s ++ inheritNL ed.repl (orig.getD ed.e []) ++ m.drop (ed.e + 1)

/-- The whole descending pass of `apply_fixes` at the abstract level. -/
def codeRun (orig m : Doc) (ds : List Edit) : Doc := ds.foldl (stepCode orig) m

/-- Shift an edit's range down by `k` lines. -/
def shiftEdit (k : Nat) (ed : Edit) : Edit := ⟨ed.s - k, ed.e - k, ed.repl⟩

/-- Shift every edit's range down by `k` lines. -/
def shiftEdits (k : Nat) (es : List Edit) : List Edit := es.map (shiftEdit k)

/-- Canonical segment decomposition of applying an ascending, disjoint edit
list whose first `k` original lines have already been emitted: emit the
untouched prefix, the replacement, and recurse on the suffix (edit indices
stay in the original numbering; `k` grows to the line after each edit). -/
def segApply : Doc → Nat → List Edit → Doc
  | l, _, [] => l
  | l, k, ed :: rest =>
    l.take (ed.s - k) ++ inheritNL ed.repl (l.getD (ed.e - k) []) ++
      segApply (l.drop ((ed.e - k) + 1)) (ed.e + 1) rest

/-- Ascending order on abstract edits (by start line). -/
def editAscLE (a b : Edit) : Prop := a.s ≤ b.s

instance : DecidableRel editAscLE := fun a b => Nat.decLe a.s b.s

instance : IsTotal Edit editAscLE := ⟨fun a b => Nat.le_total a.s b.s⟩

instance : IsTrans Edit editAscLE := ⟨fun _ _ _ h1 h2 => Nat.le_trans h1 h2⟩

/-- Stable ascending sort of abstract edits. -/
def sortEditsAsc (es : List Edit) : List Edit := List.insertionSort editAscLE es

/-- Modelled from the spec: the naive reference implementation of §8 — apply
the edits one at a time in ascending order, recomputing line indices after
each application by carrying the accumulated length offset, reading the
terminator-inheritance line from the current document at the recomputed
index. -/
def naiveAux : Doc → Int → List Edit → Doc
  | m, _, [] => m
  | m, off, ed :: rest =>
    naiveAux
      (m.take ((ed.s : Int) + off).toNat ++
        inheritNL ed.repl (m.getD ((ed.e : Int) + off).toNat []) ++
        m.drop (((ed.e : Int) + off).toNat + 1))
      (off + ((inheritNL ed.repl (m.getD ((ed.e : Int) + off).toNat [])).length : Int) -
        ((((ed.e : Int) + off).toNat : Int) - (((ed.s : Int) + off).toNat : Int) + 1))
      rest

/-- Modelled from the spec: the naive reference applied to a fixes list —
sort ascending by start line, then apply one edit at a time with freshly
recomputed indices. -/
def naiveApplyFixes (l : Doc) (fixes : List Fix) : Doc :=
  naiveAux l 0 (sortEditsAsc (fixes.map toEdit))

/-- A fix that a validating normalizer would accept against an `n`-line
document: key present, `1 ≤ startLine ≤ endLine ≤ n`. -/
def FixValid (n : Nat) (f : Fix) : Prop :=
  f.lineNumber.isSome ∧ 1 ≤ fixStartL f ∧ fixStartL f ≤ fixEndL f ∧
    fixEndL f ≤ (n : Int)

instance (n : Nat) (f : Fix) : Decidable (FixValid n f) :=
  inferInstanceAs (Decidable (_ ∧ _ ∧ _ ∧ _))

/-- Two fixes whose 1-based inclusive ranges do not overlap. -/
def FixDisjoint (f g : Fix) : Prop :=
  fixEndL f < fixStartL g ∨ fixEndL g < fixStartL f

instance (f g : Fix) : Decidable (FixDisjoint f g) :=
  inferInstanceAs (Decidable (_ ∨ _))

/-- Strict descending order on abstract edits, used to identify the unique
descending arrangement of a disjoint edit set. -/
def editSGT (a b : Edit) : Prop := b.s < a.s

instance : IsAntisymm Edit editSGT :=
  ⟨fun _ _ h1 h2 => absurd (Nat.lt_trans h1 h2) (Nat.lt_irrefl _)⟩

/-! ### Helper lemmas about the Python primitives -/

theorem take_min_length {α : Type} (l : List α) (k : Nat) :
    l.take (min k l.length) = l.take k := by
  rcases Nat.le_total k l.length with h | h
  · rw [Nat.min_eq_left h]
  · rw [Nat.min_eq_right h, List.take_length, List.take_of_length_le h]

theorem drop_min_length {α : Type} (l : List α) (k : Nat) :
    l.drop (min k l.length) = l.drop k := by
  rcases Nat.le_total k l.length with h | h
  · rw [Nat.min_eq_left h]
  · rw [Nat.min_eq_right h, List.drop_length, List.drop_eq_nil_of_le h]

theorem pySetSlice_nonneg (m : Doc) (a b : Int) (r : List Line)
    (ha : 0 ≤ a) (hab : a ≤ b) :
    pySetSlice m a b r = m.take a.toNat ++ r ++ m.drop b.toNat := by
  have hb : 0 ≤ b := le_trans ha hab
  have hmax : max (min a.toNat m.length) (min b.toNat m.length) =
      min b.toNat m.length := by
    have := Int.toNat_le_toNat hab
    omega
  unfold pySetSlice sliceIdx
  simp only [if_neg (not_lt.mpr ha), if_neg (not_lt.mpr hb)]
  rw [hmax, take_min_length, drop_min_length]

theorem pySetSlice_append_high (m : Doc) (a b : Int) (r : List Line)
    (ha : (m.length : Int) ≤ a) (hb : a ≤ b) :
    pySetSlice m a b r = m ++ r := by
  have h0 : 0 ≤ a := le_trans (Int.natCast_nonneg _) ha
  rw [pySetSlice_nonneg m a b r h0 hb]
  have hta : m.length ≤ a.toNat := by omega
  have htb : m.length ≤ b.toNat := by omega
  rw [List.take_of_length_le hta, List.drop_eq_nil_of_le htb, List.append_nil]

theorem drop_pred_eq_getLast {α : Type} :
    ∀ (l : List α) (h : l ≠ []), l.drop (l.length - 1) = [l.getLast h]
  | [a], _ => rfl
  | a :: b :: t, _ => by
    have ih := drop_pred_eq_getLast (b :: t) (by simp)
    have h1 : (a :: b :: t).length - 1 = (b :: t).length - 1 + 1 := by
      simp [List.length_cons]
    rw [List.getLast_cons (by simp : b :: t ≠ []), h1, List.drop_succ_cons, ih]

theorem pySetSlice_neg_one (l : Doc) (r : List Line) (h : l ≠ []) :
    pySetSlice l (-1) 0 r = l.dropLast ++ r ++ [l.getLast h] := by
  have hn : 1 ≤ l.length := List.length_pos.mpr h
  have h1 : sliceIdx l.length (-1) = l.length - 1 := by
    unfold sliceIdx
    rw [if_pos (by omega)]
    omega
  have h2 : sliceIdx l.length 0 = 0 := by
    unfold sliceIdx
    rw [if_neg (by omega)]
    simp
  unfold pySetSlice
  rw [h1, h2, Nat.max_eq_left (Nat.zero_le _), ← List.dropLast_eq_take,
    drop_pred_eq_getLast l h]

theorem pyGet_nonneg (l : Doc) (i : Int) (h0 : 0 ≤ i) :
    pyGet l i = l[i.toNat]? := by
  have hidx : pyIdx l.length i = i := by
    unfold pyIdx
    rw [if_neg (not_lt.mpr h0)]
  unfold pyGet
  rw [hidx, if_pos h0]

theorem pyGet_in_range (l : Doc) (i : Int) (h0 : 0 ≤ i) (hlt : i.toNat < l.length) :
    pyGet l i = some (l.getD i.toNat []) := by
  rw [pyGet_nonneg l i h0, List.getElem?_eq_getElem hlt, List.getD_eq_getElem _ _ hlt]

theorem pyGet_too_big (l : Doc) (i : Int) (h0 : 0 ≤ i) (hge : l.length ≤ i.toNat) :
    pyGet l i = none := by
  rw [pyGet_nonneg l i h0]
  exact List.getElem?_eq_none hge

theorem pyGet_neg_one (l : Doc) (h : l ≠ []) : pyGet l (-1) = l.getLast? := by
  have hn : 1 ≤ l.length := List.length_pos.mpr h
  have hidx : pyIdx l.length (-1) = -1 + l.length := by
    unfold pyIdx
    rw [if_pos (by omega)]
  have hj : (0 : Int) ≤ -1 + l.length := by omega
  have ht : ((-1 : Int) + l.length).toNat = l.length - 1 := by omega
  unfold pyGet
  rw [hidx, if_pos hj, ht, List.getLast?_eq_getElem?]

theorem getLast?_append_right {α : Type} (A B : List α) (h : B ≠ []) :
    (A ++ B).getLast? = B.getLast? := by
  obtain ⟨x, hx⟩ := Option.isSome_iff_exists.mp (List.getLast?_isSome.mpr h)
  rw [List.getLast?_append, hx]
  rfl

theorem getLast?_drop {α : Type} (l : List α) (k : Nat) (h : k < l.length) :
    (l.drop k).getLast? = l.getLast? := by
  rw [List.getLast?_eq_getElem?, List.getLast?_eq_getElem?, List.length_drop,
    List.getElem?_drop]
  congr 1
  omega

/-! ### Bridging the faithful Python model to the in-range splice form -/

theorem spliceWithInherit_shape (orig m : Doc) (a e : Int) (code : List Char)
    (d : Doc) (h : spliceWithInherit orig m a e code = .ok d) :
    ∃ r, d = pySetSlice m a (e + 1) r := by
  unfold spliceWithInherit at h
  split at h
  · exact ⟨splitlines code, by cases h; rfl⟩
  · split at h
    · exact ⟨splitlines code, by cases h; rfl⟩
    · split at h
      · cases h
      · exact ⟨_, by cases h; rfl⟩

theorem spliceWithInherit_in_range (orig m : Doc) (a e : Int) (code : List Char)
    (h0 : 0 ≤ a) (hae : a ≤ e + 1) (he0 : 0 ≤ e) (hlt : e.toNat < orig.length) :
    spliceWithInherit orig m a e code =
      .ok (m.take a.toNat ++
            inheritNL (splitlines code) (orig.getD e.toNat []) ++
            m.drop (e + 1).toNat) := by
  have hget := pyGet_in_range orig e he0 hlt
  unfold spliceWithInherit
  split
  · next hg =>
    rw [pySetSlice_nonneg m a (e + 1) _ h0 hae]
    simp [inheritNL, hg]
  · next last hg =>
    split
    · next hl =>
      rw [pySetSlice_nonneg m a (e + 1) _ h0 hae]
      simp [inheritNL, hg, hl]
    · next hl =>
      simp only [hget]
      rw [pySetSlice_nonneg m a (e + 1) _ h0 hae]
      by_cases ho : endsWithNL (orig.getD e.toNat [])
      · simp [inheritNL, hg, hl, ho]
      · simp [inheritNL, hg, hl, ho]

theorem applyOneFix_valid (orig m : Doc) (f : Fix) (hv : FixValid orig.length f) :
    applyOneFix orig m f = .ok (stepCode orig m (toEdit f)) := by
  obtain ⟨hsome, h1, hse, hen⟩ := hv
  obtain ⟨v, hvl⟩ := Option.isSome_iff_exists.mp hsome
  have hvv : fixStartL f = v := by simp [fixStartL, hvl]
  have he : f.endLineNumber.getD ((v - 1) + 1) - 1 = fixEndL f - 1 := by
    cases hE : f.endLineNumber <;> simp [fixEndL, hE, hvv]
  rw [hvv] at h1 hse
  have h0 : (0 : Int) ≤ v - 1 := by omega
  have hae : v - 1 ≤ (fixEndL f - 1) + 1 := by omega
  have he0 : (0 : Int) ≤ fixEndL f - 1 := by omega
  have hlt : (fixEndL f - 1).toNat < orig.length := by omega
  have h3 : (fixEndL f - 1 + 1).toNat = (fixEndL f - 1).toNat + 1 := by omega
  simp only [applyOneFix, hvl]
  rw [he, spliceWithInherit_in_range orig m _ _ _ h0 hae he0 hlt]
  simp only [stepCode, toEdit]
  rw [hvv, h3]

theorem foldlM_applyOneFix (orig : Doc) :
    ∀ (ds : List Fix) (m : Doc), (∀ f ∈ ds, FixValid orig.length f) →
      ds.foldlM (applyOneFix orig) m = .ok (codeRun orig m (ds.map toEdit))
  | [], m, _ => rfl
  | f :: t, m, h => by
    rw [List.foldlM_cons, applyOneFix_valid orig m f (h f (by simp))]
    show t.foldlM (applyOneFix orig) (stepCode orig m (toEdit f)) = _
    rw [foldlM_applyOneFix orig t _ (fun g hg => h g (by simp [hg]))]
    rfl

theorem patchLines_valid (l : Doc) (fixes : List Fix)
    (hv : ∀ f ∈ fixes, FixValid l.length f) :
    patchLines l fixes = .ok (codeRun l l ((sortFixesDesc fixes).map toEdit)) := by
  have hall : fixes.all (fun f => f.lineNumber.isSome) = true := by
    rw [List.all_eq_true]
    exact fun f hf => (hv f hf).1
  unfold patchLines
  rw [if_pos hall]
  exact foldlM_applyOneFix l _ l
    (fun f hf => hv f ((List.mem_insertionSort fixDescLE).mp hf))

theorem patchLines_singleton (l : Doc) (f : Fix) (v : Int)
    (h : f.lineNumber = some v) :
    patchLines l [f] = applyOneFix l l f := by
  have hall : [f].all (fun g => g.lineNumber.isSome) = true := by simp [h]
  unfold patchLines
  rw [if_pos hall]
  show List.foldlM (applyOneFix l) l [f] = applyOneFix l l f
  rw [List.foldlM_cons]
  cases happ : applyOneFix l l f with
  | error ex => rfl
  | ok d => rfl

theorem sortFixesDesc_pair (f g : Fix) (h : fixStartL f < fixStartL g) :
    sortFixesDesc [f, g] = [g, f] := by
  have hng : ¬ fixDescLE f g := not_le.mpr h
  show List.orderedInsert fixDescLE f [g] = [g, f]
  simp only [List.orderedInsert]
  rw [if_neg hng]

theorem getD_last (l : Doc) (x : Line) (h : l.getLast? = some x) :
    l.getD (l.length - 1) [] = x := by
  rw [List.getLast?_eq_getElem?] at h
  rw [List.getD_eq_getD_get?, List.get?_eq_getElem?, h]
  rfl

theorem endsWithNL_concat (x : Line) : endsWithNL (x ++ ['\n']) = true := by
  unfold endsWithNL
  rw [List.getLast?_concat]
  rfl

theorem ne_nil_of_getLast?_eq_some {α : Type} (l : List α) (x : α)
    (h : l.getLast? = some x) : l ≠ [] := by
  intro hl
  rw [hl] at h
  cases h

/-! ### The claims -/

/-- C1: for every document and fixes list, a negative confirmation answer
performs no write — the on-disk content after `apply_fixes` is byte-identical
to the content before — and whenever the run actually reaches the prompt
(nonempty fixes, patch computation succeeded) the outcome is reported as
`aborted`, not as a failure. -/
theorem apply_fixes_decline_no_write (content : List Char) (fixes : List Fix) :
    (apply_fixes content fixes false).1 = content ∧
      ∀ d, patchLines (splitlines content) fixes = .ok d → fixes ≠ [] →
        apply_fixes content fixes false = (content, .aborted) := by
  constructor
  · unfold apply_fixes
    split
    · rfl
    · split <;> rfl
  · intro d hd hne
    have hemp : fixes.isEmpty = false := by
      cases fixes with
      | nil => exact absurd rfl hne
      | cons a t => rfl
    simp [apply_fixes, hemp, hd]

theorem apply_fixes_decline_no_write_witness :
    (apply_fixes ['a', '\n'] [⟨some 1, some 1, ['B', '\n']⟩] false).1 = ['a', '\n'] ∧
      apply_fixes ['a', '\n'] [⟨some 1, some 1, ['B', '\n']⟩] false =
        (['a', '\n'], .aborted) := by
  have h := apply_fixes_decline_no_write ['a', '\n'] [⟨some 1, some 1, ['B', '\n']⟩]
  exact ⟨h.1, h.2 [['B', '\n']] rfl (by simp)⟩

/-- C8: the two concrete scenarios of the spec — `["a\n","b\n","c\n"]` with
edits `{1,1,"X\n"}` and `{2,3,"Y\nZ\n"}` gives `["X\n","Y\n","Z\n"]`, and the
single edit `{2,2,"B\n"}` gives `["a\n","B\n","c\n"]`. -/
theorem concrete_scenarios :
    patchLines [['a', '\n'], ['b', '\n'], ['c', '\n']]
        [⟨some 1, some 1, ['X', '\n']⟩, ⟨some 2, some 3, ['Y', '\n', 'Z', '\n']⟩] =
      .ok [['X', '\n'], ['Y', '\n'], ['Z', '\n']] ∧
      patchLines [['a', '\n'], ['b', '\n'], ['c', '\n']] [⟨some 2, some 2, ['B', '\n']⟩] =
        .ok [['a', '\n'], ['B', '\n'], ['c', '\n']] :=
  ⟨rfl, rfl⟩

/-- C2 counterexample: on the 3-line document, an edit with startLine 5 is not
rejected — the patched document is the original with `"X\n"` appended, which
differs from the original, and no `OutOfRange` failure is reported. -/
theorem out_of_range_counterexample :
    patchLines [['a', '\n'], ['b', '\n'], ['c', '\n']] [⟨some 5, none, ['X', '\n']⟩] =
      .ok [['a', '\n'], ['b', '\n'], ['c', '\n'], ['X', '\n']] ∧
      ([['a', '\n'], ['b', '\n'], ['c', '\n'], ['X', '\n']] : Doc) ≠
        [['a', '\n'], ['b', '\n'], ['c', '\n']] :=
  ⟨rfl, by decide⟩

/-- C2 (amended): a candidate whose startLine exceeds the line count (endLine
absent) is not rejected: when its replacement is empty or ends in a
terminator, the replacement lines are appended at the end of the document;
when the replacement lacks a final terminator, the whole operation fails with
an `IndexError`.  No per-candidate `OutOfRange` failure is reported. -/
theorem out_of_range_behavior (l : Doc) (f : Fix) (s : Int)
    (hln : f.lineNumber = some s) (hend : f.endLineNumber = none)
    (hgt : (l.length : Int) < s) :
    ((splitlines f.suggestedCode).getLast?.all endsWithNL = true →
      patchLines l [f] = .ok (l ++ splitlines f.suggestedCode)) ∧
      ∀ last, (splitlines f.suggestedCode).getLast? = some last →
        endsWithNL last = false →
        patchLines l [f] = .error .indexError := by
  have hp := patchLines_singleton l f s hln
  have he : f.endLineNumber.getD ((s - 1) + 1) - 1 = s - 1 := by
    rw [hend, Option.getD_none]
    omega
  have hhigh : pySetSlice l (s - 1) ((s - 1) + 1) (splitlines f.suggestedCode) =
      l ++ splitlines f.suggestedCode :=
    pySetSlice_append_high l (s - 1) ((s - 1) + 1) _ (by omega) (by omega)
  constructor
  · intro hlast
    rw [hp]
    simp only [applyOneFix, hln]
    rw [he]
    unfold spliceWithInherit
    split
    · next hg => rw [hhigh]
    · next last hg =>
      split
      · next hl => rw [hhigh]
      · next hl =>
        rw [hg] at hlast
        simp only [Option.all] at hlast
        exact absurd hlast hl
  · intro last hg hfalse
    rw [hp]
    simp only [applyOneFix, hln]
    rw [he]
    have hnone : pyGet l (s - 1) = none :=
      pyGet_too_big l (s - 1) (by omega) (by omega)
    unfold spliceWithInherit
    split
    · next hg2 => rw [hg] at hg2; cases hg2
    · next last2 hg2 =>
      rw [hg] at hg2
      cases hg2
      rw [if_neg (by rw [hfalse]; simp)]
      simp only [hnone]

/-- C2 witness for the amended claim, at the spec's own scenario inputs. -/
theorem out_of_range_behavior_witness :
    patchLines [['a', '\n'], ['b', '\n'], ['c', '\n']] [⟨some 5, none, ['X', '\n']⟩] =
      .ok ([['a', '\n'], ['b', '\n'], ['c', '\n']] ++ splitlines ['X', '\n']) ∧
      patchLines [['a', '\n'], ['b', '\n'], ['c', '\n']] [⟨some 5, none, ['X']⟩] =
        .error .indexError := by
  have h1 := out_of_range_behavior [['a', '\n'], ['b', '\n'], ['c', '\n']]
    ⟨some 5, none, ['X', '\n']⟩ 5 rfl rfl (by decide)
  have h2 := out_of_range_behavior [['a', '\n'], ['b', '\n'], ['c', '\n']]
    ⟨some 5, none, ['X']⟩ 5 rfl rfl (by decide)
  exact ⟨h1.1 (by decide), h2.2 ['X'] (by decide) (by decide)⟩

/-- C5 counterexample: for the overlapping pair `{1,2,"X\n"}` and
`{2,3,"Y\n"}` on the 3-line document, the patched document is `["X\n"]`,
which differs both from applying only the lower edit (`["X\n","c\n"]`) and
from applying only the higher one (`["a\n","Y\n"]`): it is not the case that
exactly one of the two was applied. -/
theorem overlap_counterexample :
    patchLines [['a', '\n'], ['b', '\n'], ['c', '\n']]
        [⟨some 1, some 2, ['X', '\n']⟩, ⟨some 2, some 3, ['Y', '\n']⟩] =
      .ok [['X', '\n']] ∧
      patchLines [['a', '\n'], ['b', '\n'], ['c', '\n']] [⟨some 1, some 2, ['X', '\n']⟩] =
        .ok [['X', '\n'], ['c', '\n']] ∧
      patchLines [['a', '\n'], ['b', '\n'], ['c', '\n']] [⟨some 2, some 3, ['Y', '\n']⟩] =
        .ok [['a', '\n'], ['Y', '\n']] ∧
      ([['X', '\n']] : Doc) ≠ [['X', '\n'], ['c', '\n']] ∧
      ([['X', '\n']] : Doc) ≠ [['a', '\n'], ['Y', '\n']] :=
  ⟨rfl, rfl, rfl, by decide, by decide⟩

/-- C5 (amended): overlapping edits are not detected or rejected — both are
spliced, the higher range first and the lower one after it, so the lower
splice can overwrite lines the higher edit produced; nothing is dropped or
reported. -/
theorem overlap_splices_both (l : Doc) (f g : Fix)
    (hf : FixValid l.length f) (hg : FixValid l.length g)
    (hlt : fixStartL f < fixStartL g) (hov : ¬ FixDisjoint f g) :
    patchLines l [f, g] = .ok (stepCode l (stepCode l l (toEdit g)) (toEdit f)) := by
  have hall : [f, g].all (fun x => x.lineNumber.isSome) = true := by
    rw [List.all_eq_true]
    intro x hx
    simp only [List.mem_cons, List.not_mem_nil, or_false] at hx
    rcases hx with rfl | rfl
    · exact hf.1
    · exact hg.1
  unfold patchLines
  rw [if_pos hall, sortFixesDesc_pair f g hlt]
  rw [List.foldlM_cons, applyOneFix_valid l l g hg]
  show List.foldlM (applyOneFix l) (stepCode l l (toEdit g)) [f] = _
  rw [List.foldlM_cons, applyOneFix_valid l _ f hf]
  rfl

theorem overlap_splices_both_witness :
    patchLines [['a', '\n'], ['b', '\n'], ['c', '\n']]
        [⟨some 1, some 2, ['X', '\n']⟩, ⟨some 2, some 3, ['Y', '\n']⟩] =
      .ok (stepCode [['a', '\n'], ['b', '\n'], ['c', '\n']]
            (stepCode [['a', '\n'], ['b', '\n'], ['c', '\n']]
              [['a', '\n'], ['b', '\n'], ['c', '\n']]
              (toEdit ⟨some 2, some 3, ['Y', '\n']⟩))
            (toEdit ⟨some 1, some 2, ['X', '\n']⟩)) :=
  overlap_splices_both [['a', '\n'], ['b', '\n'], ['c', '\n']]
    ⟨some 1, some 2, ['X', '\n']⟩ ⟨some 2, some 3, ['Y', '\n']⟩
    (by decide) (by decide) (by decide) (by decide)

/-- C6 counterexample: with a good fix followed by a candidate missing
`lineNumber`, the whole operation crashes with `KeyError` and the good
candidate is not applied, although alone it would have been. -/
theorem missing_line_counterexample :
    apply_fixes ['a', '\n', 'b', '\n']
        [⟨some 1, some 1, ['X', '\n']⟩, ⟨none, none, ['Q', '\n']⟩] true =
      (['a', '\n', 'b', '\n'], .crashed .keyError) ∧
      apply_fixes ['a', '\n', 'b', '\n'] [⟨some 1, some 1, ['X', '\n']⟩] true =
        (['X', '\n', 'b', '\n'], .applied) ∧
      (['a', '\n', 'b', '\n'] : List Char) ≠ ['X', '\n', 'b', '\n'] :=
  ⟨rfl, rfl, by decide⟩

/-- C6 (amended): a candidate with a missing `lineNumber` makes the whole
operation fail — `sorted` raises `KeyError` before any candidate is applied —
so nothing is written, no other candidate is processed, and no count of
dropped candidates is reported. -/
theorem missing_line_crashes_all (content : List Char) (fixes : List Fix)
    (confirm : Bool) (f : Fix) (hf : f ∈ fixes) (hmiss : f.lineNumber = none) :
    apply_fixes content fixes confirm = (content, .crashed .keyError) := by
  have hemp : fixes.isEmpty = false := by
    cases fixes with
    | nil => cases hf
    | cons a t => rfl
  have hall : fixes.all (fun g => g.lineNumber.isSome) = false := by
    apply Bool.eq_false_iff.mpr
    intro hcon
    rw [List.all_eq_true] at hcon
    have h2 := hcon f hf
    rw [hmiss] at h2
    exact absurd h2 (by simp)
  have hpatch : patchLines (splitlines content) fixes = .error .keyError := by
    unfold patchLines
    rw [if_neg (by simp [hall])]
  simp [apply_fixes, hemp, hpatch]

theorem missing_line_crashes_all_witness :
    apply_fixes ['a', '\n', 'b', '\n']
        [⟨some 2, some 2, ['R', '\n']⟩, ⟨none, some 1, ['Q', '\n']⟩] true =
      (['a', '\n', 'b', '\n'], .crashed .keyError) :=
  missing_line_crashes_all ['a', '\n', 'b', '\n']
    [⟨some 2, some 2, ['R', '\n']⟩, ⟨none, some 1, ['Q', '\n']⟩] true
    ⟨none, some 1, ['Q', '\n']⟩ (by simp) rfl

/-- C7: when `endLineNumber` is absent it defaults to the start line — the fix
behaves exactly like the fix with `endLineNumber` set to `lineNumber` — and
any successful application is a single-line splice replacing the slice
`[startLine-1 : startLine]` of the working document with the (possibly
multi-line) replacement. -/
theorem endline_defaults_to_startline (orig m : Doc) (f : Fix) (s : Int)
    (hln : f.lineNumber = some s) (hend : f.endLineNumber = none) :
    applyOneFix orig m f = applyOneFix orig m ⟨some s, some s, f.suggestedCode⟩ ∧
      ∀ d, applyOneFix orig m f = .ok d → 1 ≤ s →
        ∃ r, d = m.take (s - 1).toNat ++ r ++ m.drop s.toNat := by
  have harg : f.endLineNumber.getD ((s - 1) + 1) - 1 = s - 1 := by
    rw [hend, Option.getD_none]
    omega
  constructor
  · simp only [applyOneFix, hln, hend, Option.getD_none, Option.getD_some]
    rw [show (s - 1 + 1 - 1 : Int) = s - 1 from by omega]
  · intro d hd h1s
    have hd2 : spliceWithInherit orig m (s - 1) (s - 1) f.suggestedCode = .ok d := by
      rw [← hd]
      simp only [applyOneFix, hln]
      rw [harg]
    obtain ⟨r, hr⟩ := spliceWithInherit_shape orig m (s - 1) (s - 1) f.suggestedCode d hd2
    rw [show (s - 1 + 1 : Int) = s from by omega] at hr
    refine ⟨r, ?_⟩
    rw [hr, pySetSlice_nonneg m (s - 1) s r (by omega) (by omega)]

theorem endline_defaults_to_startline_witness :
    applyOneFix [['a', '\n'], ['b', '\n']] [['a', '\n'], ['b', '\n']]
        ⟨some 2, none, ['W', '\n']⟩ =
      applyOneFix [['a', '\n'], ['b', '\n']] [['a', '\n'], ['b', '\n']]
        ⟨some 2, some 2, ['W', '\n']⟩ ∧
      ∃ r, ([['a', '\n'], ['W', '\n']] : Doc) =
        [['a', '\n'], ['b', '\n']].take ((2 : Int) - 1).toNat ++ r ++
          [['a', '\n'], ['b', '\n']].drop (2 : Int).toNat := by
  have h := endline_defaults_to_startline [['a', '\n'], ['b', '\n']]
    [['a', '\n'], ['b', '\n']] ⟨some 2, none, ['W', '\n']⟩ 2 rfl rfl
  exact ⟨h.1, h.2 [['a', '\n'], ['W', '\n']] rfl (by decide)⟩

/-- C10 counterexample: two fixes with equal keys target line 1; swapping
their order in the input list changes the patched document, so the result is
not independent of the original ordering of equal-keyed fixes. -/
theorem equal_keys_order_counterexample :
    patchLines [['a', '\n']]
        [⟨some 1, some 1, ['X', '\n']⟩, ⟨some 1, some 1, ['Y', '\n']⟩] =
      .ok [['Y', '\n']] ∧
      patchLines [['a', '\n']]
          [⟨some 1, some 1, ['Y', '\n']⟩, ⟨some 1, some 1, ['X', '\n']⟩] =
        .ok [['X', '\n']] ∧
      ([['Y', '\n']] : Doc) ≠ [['X', '\n']] :=
  ⟨rfl, rfl, by decide⟩

/-- C10 (amended): the patched document is a deterministic function of the
file content and the fixes list *in its given order*: the descending sort is
stable, so a list of equal-keyed fixes is left in input order and the loop
folds over the fixes exactly as given. -/
theorem equal_keys_stable_sort :
    ∀ (fixes : List Fix) (k : Int), (∀ f ∈ fixes, f.lineNumber = some k) →
      sortFixesDesc fixes = fixes ∧
        ∀ l, patchLines l fixes = fixes.foldlM (applyOneFix l) l
  | [], k, _ => ⟨rfl, fun l => rfl⟩
  | a :: t, k, h => by
    have ht : sortFixesDesc t = t :=
      (equal_keys_stable_sort t k (fun f hf => h f (by simp [hf]))).1
    have ht2 : List.insertionSort fixDescLE t = t := ht
    have hsort : sortFixesDesc (a :: t) = a :: t := by
      show List.orderedInsert fixDescLE a (List.insertionSort fixDescLE t) = a :: t
      rw [ht2]
      cases t with
      | nil => rfl
      | cons b t2 =>
        have hab : fixDescLE a b := by
          unfold fixDescLE fixStartL
          rw [h a (by simp), h b (by simp)]
        exact List.orderedInsert_of_le fixDescLE t2 hab
    refine ⟨hsort, fun l => ?_⟩
    have hall : (a :: t).all (fun g => g.lineNumber.isSome) = true := by
      rw [List.all_eq_true]
      intro f hf
      rw [h f hf]
      rfl
    unfold patchLines
    rw [if_pos hall, hsort]

theorem equal_keys_stable_sort_witness :
    sortFixesDesc [⟨some 1, some 1, ['X', '\n']⟩, ⟨some 1, some 1, ['Y', '\n']⟩] =
      [⟨some 1, some 1, ['X', '\n']⟩, ⟨some 1, some 1, ['Y', '\n']⟩] ∧
      patchLines [['a', '\n']]
          [⟨some 1, some 1, ['X', '\n']⟩, ⟨some 1, some 1, ['Y', '\n']⟩] =
        [⟨some 1, some 1, ['X', '\n']⟩, ⟨some 1, some 1, ['Y', '\n']⟩].foldlM
          (applyOneFix [['a', '\n']]) [['a', '\n']] := by
  have h := equal_keys_stable_sort
    [⟨some 1, some 1, ['X', '\n']⟩, ⟨some 1, some 1, ['Y', '\n']⟩] 1
    (by intro f hf; simp only [List.mem_cons, List.not_mem_nil, or_false] at hf
        rcases hf with rfl | rfl <;> rfl)
  exact ⟨h.1, h.2 [['a', '\n']]⟩

/-- C9: a fix with `lineNumber = 0` (and `endLineNumber` 0 or absent) is not
rejected: `start` and `end` both resolve to the Python index `-1`, so the
splice targets the empty slice just before the document's last line — the
replacement lines are inserted immediately before the last line — and the
terminator-inheritance check reads the last line's terminator state. -/
theorem line_zero_inserts_before_last (l : Doc) (f : Fix) (hne : l ≠ [])
    (h0 : f.lineNumber = some 0) (hend : f.endLineNumber.getD 0 = 0) :
    patchLines l [f] =
      .ok (l.dropLast ++ inheritNL (splitlines f.suggestedCode) (l.getLast hne) ++
        [l.getLast hne]) := by
  have hp := patchLines_singleton l f 0 h0
  have he2 : f.endLineNumber.getD (0 - 1 + 1) - 1 = -1 := by
    cases hE : f.endLineNumber with
    | none => simp
    | some w =>
      rw [hE, Option.getD_some] at hend
      rw [Option.getD_some, hend]
      decide
  have hlast : pyGet l (-1) = some (l.getLast hne) := by
    rw [pyGet_neg_one l hne, List.getLast?_eq_getLast_of_ne_nil hne]
  have hsplice : ∀ r, pySetSlice l (-1) (-1 + 1) r =
      l.dropLast ++ r ++ [l.getLast hne] := by
    intro r
    rw [show ((-1 : Int) + 1) = 0 from by omega]
    exact pySetSlice_neg_one l r hne
  rw [hp]
  simp only [applyOneFix, h0]
  rw [he2, show ((0 : Int) - 1) = -1 from by omega]
  unfold spliceWithInherit
  split
  · next hg => rw [hsplice]; simp [inheritNL, hg]
  · next last hg =>
    split
    · next hl => rw [hsplice]; simp [inheritNL, hg, hl]
    · next hl =>
      simp only [hlast]
      by_cases ho : endsWithNL (l.getLast hne)
      · rw [if_pos ho, hsplice]
        simp [inheritNL, hg, hl, ho]
      · rw [if_neg ho, hsplice]
        simp [inheritNL, hg, hl, ho]

theorem line_zero_inserts_before_last_witness :
    patchLines [['a', '\n'], ['b', '\n'], ['c', '\n']] [⟨some 0, none, ['P', '\n']⟩] =
      .ok ([['a', '\n'], ['b', '\n'], ['c', '\n']].dropLast ++
        inheritNL (splitlines ['P', '\n'])
          ([['a', '\n'], ['b', '\n'], ['c', '\n']].getLast (by simp)) ++
        [[['a', '\n'], ['b', '\n'], ['c', '\n']].getLast (by simp)]) :=
  line_zero_inserts_before_last [['a', '\n'], ['b', '\n'], ['c', '\n']]
    ⟨some 0, none, ['P', '\n']⟩ (by simp) rfl rfl

/-- C4: terminator preservation.  (a) An applied edit whose range does not
include the last line leaves the document's last line — and so its terminator
state — unchanged.  (b) An edit replacing the last line of a document whose
last line lacks a terminator, with replacement text also lacking a final
terminator, yields a document whose last line is exactly that replacement
line, with no spurious terminator.  (c) In general, when the replacement text
does not end in a terminator, the final replacement line of an edit inherits
the terminator state of the original line at `endLine`. -/
theorem terminator_preservation :
    (∀ (l : Doc) (f : Fix), FixValid l.length f → fixEndL f < (l.length : Int) →
      ∃ d, patchLines l [f] = .ok d ∧ d.getLast? = l.getLast?) ∧
      (∀ (l : Doc) (f : Fix) (rl : Line), FixValid l.length f →
        fixEndL f = (l.length : Int) →
        l.getLast?.map endsWithNL = some false →
        (splitlines f.suggestedCode).getLast? = some rl → endsWithNL rl = false →
        ∃ d, patchLines l [f] = .ok d ∧ d.getLast? = some rl) ∧
      ∀ (repl : List Line) (ol last : Line), repl.getLast? = some last →
        endsWithNL last = false →
        ((inheritNL repl ol).getLast?).map endsWithNL = some (endsWithNL ol) := by
  refine ⟨?_, ?_, ?_⟩
  · intro l f hv hlt
    obtain ⟨v, hvl⟩ := Option.isSome_iff_exists.mp hv.1
    rw [patchLines_singleton l f v hvl, applyOneFix_valid l l f hv]
    refine ⟨_, rfl, ?_⟩
    simp only [stepCode]
    have h1 : (toEdit f).e + 1 < l.length := by
      have h2 := hv.2.1
      have h3 := hv.2.2.1
      simp only [toEdit]
      omega
    have hdrop : l.drop ((toEdit f).e + 1) ≠ [] := by
      rw [ne_eq, List.drop_eq_nil_iff]
      omega
    rw [getLast?_append_right _ _ hdrop, getLast?_drop l _ h1]
  · intro l f rl hv hEnd hlastNL hrl hrlNL
    obtain ⟨v, hvl⟩ := Option.isSome_iff_exists.mp hv.1
    obtain ⟨ll, hll, hllNL⟩ : ∃ x, l.getLast? = some x ∧ endsWithNL x = false := by
      cases hx : l.getLast? with
      | none => rw [hx] at hlastNL; cases hlastNL
      | some x =>
        rw [hx] at hlastNL
        exact ⟨x, rfl, by simpa using hlastNL⟩
    rw [patchLines_singleton l f v hvl, applyOneFix_valid l l f hv]
    refine ⟨_, rfl, ?_⟩
    simp only [stepCode]
    have hn1 : 1 ≤ l.length := by
      have h2 := hv.2.1
      have h3 := hv.2.2.1
      omega
    have hE : (toEdit f).e = l.length - 1 := by
      simp only [toEdit]
      omega
    have hE1 : (toEdit f).e + 1 = l.length := by omega
    have hol : l.getD (toEdit f).e [] = ll := by
      rw [hE]
      exact getD_last l ll hll
    have hinh : inheritNL (toEdit f).repl (l.getD (toEdit f).e []) = (toEdit f).repl := by
      rw [hol]
      simp only [toEdit]
      simp [inheritNL, hrl, hrlNL, hllNL]
    rw [hinh, hE1, List.drop_length, List.append_nil]
    have hrne : (toEdit f).repl ≠ [] := by
      simp only [toEdit]
      exact ne_nil_of_getLast?_eq_some _ _ hrl
    rw [getLast?_append_right _ _ hrne]
    simp only [toEdit]
    exact hrl
  · intro repl ol last hlast hlastNL
    by_cases ho : endsWithNL ol
    · have : inheritNL repl ol = repl.dropLast ++ [last ++ ['\n']] := by
        simp [inheritNL, hlast, hlastNL, ho]
      rw [this, List.getLast?_concat]
      simp [endsWithNL_concat, ho]
    · have hrepl : inheritNL repl ol = repl := by
        simp [inheritNL, hlast, hlastNL, ho]
      have ho2 : endsWithNL ol = false := Bool.eq_false_iff.mpr ho
      rw [hrepl, hlast]
      show some (endsWithNL last) = some (endsWithNL ol)
      rw [hlastNL, ho2]

/-! ### Machinery for C3: descending splices against original indices agree
with the naive one-at-a-time reference with recomputed indices. -/

theorem shiftEdit_comp (k K : Nat) (hk : k ≤ K) (ed : Edit) :
    shiftEdit (K - k) (shiftEdit k ed) = shiftEdit K ed := by
  simp only [shiftEdit, Edit.mk.injEq]
  refine ⟨by omega, by omega, trivial⟩

theorem shiftEdits_comp (k K : Nat) (hk : k ≤ K) (es : List Edit) :
    shiftEdits (K - k) (shiftEdits k es) = shiftEdits K es := by
  unfold shiftEdits
  rw [List.map_map]
  refine List.map_congr_left (fun ed _ => ?_)
  show shiftEdit (K - k) (shiftEdit k ed) = shiftEdit K ed
  exact shiftEdit_comp k K hk ed

theorem shiftEdits_zero : ∀ es : List Edit, shiftEdits 0 es = es
  | [] => rfl
  | ed :: t => by
    show shiftEdit 0 ed :: shiftEdits 0 t = ed :: t
    rw [shiftEdits_zero t]
    cases ed with
    | mk s e repl => rfl

theorem getD_drop_region (S : Doc) (p j : Nat) :
    (S.drop p).getD j [] = S.getD (p + j) [] := by
  rw [List.getD_eq_getD_get?, List.getD_eq_getD_get?, List.get?_eq_getElem?,
    List.get?_eq_getElem?, List.getElem?_drop]

theorem codeRun_localize (S : Doc) (p : Nat) :
    ∀ (ds : List Edit) (m2 : Doc),
      (∀ ed ∈ ds, p ≤ ed.s ∧ ed.s ≤ ed.e ∧ ed.e < S.length) →
      codeRun S (S.take p ++ m2) ds =
        S.take p ++ codeRun (S.drop p) m2 (shiftEdits p ds)
  | [], m2, _ => rfl
  | ed :: t, m2, h => by
    obtain ⟨hps, hse, hen⟩ := h ed (by simp)
    have hpS : p ≤ S.length := by omega
    have hlenA : (S.take p).length = p := by
      rw [List.length_take]
      omega
    have hstep : stepCode S (S.take p ++ m2) ed =
        S.take p ++ stepCode (S.drop p) m2 (shiftEdit p ed) := by
      simp only [stepCode, shiftEdit]
      rw [List.take_append_eq_append_take, List.drop_append_eq_append_drop, hlenA,
        List.take_of_length_le (by omega), List.drop_eq_nil_of_le (by omega),
        getD_drop_region S p (ed.e - p), show p + (ed.e - p) = ed.e from by omega,
        show ed.e + 1 - p = (ed.e - p) + 1 from by omega]
      simp [List.append_assoc]
    show codeRun S (stepCode S (S.take p ++ m2) ed) t = _
    rw [hstep,
      codeRun_localize S p t (stepCode (S.drop p) m2 (shiftEdit p ed))
        (fun x hx => h x (by simp [hx]))]
    rfl

theorem codeRun_eq_segApply :
    ∀ (as : List Edit) (k : Nat) (S : Doc),
      List.Pairwise (fun a b => a.e < b.s) as →
      (∀ ed ∈ as, k ≤ ed.s ∧ ed.s ≤ ed.e ∧ ed.e - k < S.length) →
      codeRun S S (shiftEdits k as).reverse = segApply S k as
  | [], _, S, _, _ => rfl
  | e1 :: t, k, S, hpw, hval => by
    obtain ⟨h1k, h1se, h1en⟩ := hval e1 (by simp)
    rw [List.pairwise_cons] at hpw
    obtain ⟨hlow, hpt⟩ := hpw
    have hcond : ∀ sed ∈ (shiftEdits k t).reverse,
        e1.e + 1 - k ≤ sed.s ∧ sed.s ≤ sed.e ∧ sed.e < S.length := by
      intro sed hsed
      rw [List.mem_reverse] at hsed
      simp only [shiftEdits] at hsed
      obtain ⟨ed, hed, rfl⟩ := List.mem_map.mp hsed
      obtain ⟨hk2, hse2, hen2⟩ := hval ed (by simp [hed])
      have hls := hlow ed hed
      simp only [shiftEdit]
      omega
    have hrev : (shiftEdits k (e1 :: t)).reverse =
        (shiftEdits k t).reverse ++ [shiftEdit k e1] := by
      simp [shiftEdits]
    rw [hrev]
    have hfold : codeRun S S ((shiftEdits k t).reverse ++ [shiftEdit k e1]) =
        stepCode S (codeRun S S (shiftEdits k t).reverse) (shiftEdit k e1) := by
      unfold codeRun
      rw [List.foldl_append]
      rfl
    rw [hfold]
    have hloc := codeRun_localize S (e1.e + 1 - k) (shiftEdits k t).reverse
      (S.drop (e1.e + 1 - k)) hcond
    rw [List.take_append_drop] at hloc
    rw [hloc]
    have hshift : shiftEdits (e1.e + 1 - k) (shiftEdits k t).reverse =
        (shiftEdits (e1.e + 1) t).reverse := by
      show ((shiftEdits k t).reverse).map (shiftEdit (e1.e + 1 - k)) = _
      rw [List.map_reverse]
      show (shiftEdits (e1.e + 1 - k) (shiftEdits k t)).reverse = _
      rw [shiftEdits_comp k (e1.e + 1) (by omega) t]
    rw [hshift]
    have hihc : ∀ ed ∈ t, e1.e + 1 ≤ ed.s ∧ ed.s ≤ ed.e ∧
        ed.e - (e1.e + 1) < (S.drop (e1.e + 1 - k)).length := by
      intro ed hed
      obtain ⟨hk2, hse2, hen2⟩ := hval ed (by simp [hed])
      have hls := hlow ed hed
      rw [List.length_drop]
      omega
    rw [codeRun_eq_segApply t (e1.e + 1) (S.drop (e1.e + 1 - k)) hpt hihc]
    -- both sides are now segment decompositions
    have hlenT : (S.take (e1.e + 1 - k)).length = e1.e + 1 - k := by
      rw [List.length_take]
      omega
    show (S.take (e1.e + 1 - k) ++
          segApply (S.drop (e1.e + 1 - k)) (e1.e + 1) t).take ((shiftEdit k e1).s) ++
        inheritNL (shiftEdit k e1).repl (S.getD (shiftEdit k e1).e []) ++
        (S.take (e1.e + 1 - k) ++
          segApply (S.drop (e1.e + 1 - k)) (e1.e + 1) t).drop ((shiftEdit k e1).e + 1) =
        segApply S k (e1 :: t)
    show (S.take (e1.e + 1 - k) ++
          segApply (S.drop (e1.e + 1 - k)) (e1.e + 1) t).take (e1.s - k) ++
        inheritNL e1.repl (S.getD (e1.e - k) []) ++
        (S.take (e1.e + 1 - k) ++
          segApply (S.drop (e1.e + 1 - k)) (e1.e + 1) t).drop ((e1.e - k) + 1) =
      S.take (e1.s - k) ++ inheritNL e1.repl (S.getD (e1.e - k) []) ++
        segApply (S.drop ((e1.e - k) + 1)) (e1.e + 1) t
    rw [List.take_append_eq_append_take, List.drop_append_eq_append_drop, hlenT,
      show e1.s - k - (e1.e + 1 - k) = 0 from by omega,
      show (e1.e - k) + 1 - (e1.e + 1 - k) = 0 from by omega,
      List.take_zero, List.drop_zero,
      List.drop_eq_nil_of_le (by rw [hlenT]; omega),
      List.take_take, Nat.min_eq_left (by omega),
      show (e1.e - k) + 1 = e1.e + 1 - k from by omega]
    simp [List.append_assoc]

theorem naiveAux_eq_segApply :
    ∀ (as : List Edit) (k : Nat) (X S : Doc) (off : Int),
      List.Pairwise (fun a b => a.e < b.s) as →
      (∀ ed ∈ as, k ≤ ed.s ∧ ed.s ≤ ed.e ∧ ed.e - k < S.length) →
      off = (X.length : Int) - k →
      naiveAux (X ++ S) off as = X ++ segApply S k as
  | [], _, X, S, _, _, _, _ => rfl
  | e1 :: t, k, X, S, off, hpw, hval, hoff => by
    obtain ⟨h1k, h1se, h1en⟩ := hval e1 (by simp)
    rw [List.pairwise_cons] at hpw
    obtain ⟨hlow, hpt⟩ := hpw
    have hsN : ((e1.s : Int) + off).toNat = X.length + (e1.s - k) := by omega
    have heN : ((e1.e : Int) + off).toNat = X.length + (e1.e - k) := by omega
    simp only [naiveAux]
    rw [hsN, heN]
    have htake : (X ++ S).take (X.length + (e1.s - k)) = X ++ S.take (e1.s - k) :=
      List.take_append (e1.s - k)
    have hdrop : (X ++ S).drop (X.length + (e1.e - k) + 1) = S.drop ((e1.e - k) + 1) := by
      rw [Nat.add_assoc]
      exact List.drop_append ((e1.e - k) + 1)
    have hgd : (X ++ S).getD (X.length + (e1.e - k)) [] = S.getD (e1.e - k) [] := by
      rw [List.getD_append_right X S [] (X.length + (e1.e - k)) (by omega),
        show X.length + (e1.e - k) - X.length = e1.e - k from by omega]
    rw [htake, hdrop, hgd]
    have hX2len : ((X ++ S.take (e1.s - k)) ++
        inheritNL e1.repl (S.getD (e1.e - k) [])).length =
        X.length + (e1.s - k) +
          (inheritNL e1.repl (S.getD (e1.e - k) [])).length := by
      rw [List.length_append, List.length_append, List.length_take]
      omega
    have hihc : ∀ ed ∈ t, e1.e + 1 ≤ ed.s ∧ ed.s ≤ ed.e ∧
        ed.e - (e1.e + 1) < (S.drop ((e1.e - k) + 1)).length := by
      intro ed hed
      obtain ⟨hk2, hse2, hen2⟩ := hval ed (by simp [hed])
      have hls := hlow ed hed
      rw [List.length_drop]
      omega
    have hoff2 : off + ((inheritNL e1.repl (S.getD (e1.e - k) [])).length : Int) -
        (((X.length + (e1.e - k) : Nat) : Int) - ((X.length + (e1.s - k) : Nat) : Int) + 1) =
        ((((X ++ S.take (e1.s - k)) ++
          inheritNL e1.repl (S.getD (e1.e - k) [])).length : Nat) : Int) - (e1.e + 1) := by
      rw [hX2len]
      omega
    have ih := naiveAux_eq_segApply t (e1.e + 1)
      ((X ++ S.take (e1.s - k)) ++ inheritNL e1.repl (S.getD (e1.e - k) []))
      (S.drop ((e1.e - k) + 1))
      (off + ((inheritNL e1.repl (S.getD (e1.e - k) [])).length : Int) -
        (((X.length + (e1.e - k) : Nat) : Int) - ((X.length + (e1.s - k) : Nat) : Int) + 1))
      hpt hihc hoff2
    rw [ih]
    show (X ++ S.take (e1.s - k)) ++ inheritNL e1.repl (S.getD (e1.e - k) []) ++
        segApply (S.drop ((e1.e - k) + 1)) (e1.e + 1) t =
      X ++ (S.take (e1.s - k) ++ inheritNL e1.repl (S.getD (e1.e - k) []) ++
        segApply (S.drop ((e1.e - k) + 1)) (e1.e + 1) t)
    simp [List.append_assoc]

theorem sortFixesDesc_map_toEdit (fixes : List Fix)
    (hv1 : ∀ f ∈ fixes, 1 ≤ fixStartL f)
    (hne : List.Pairwise (fun f g => fixStartL f ≠ fixStartL g) fixes) :
    (sortFixesDesc fixes).map toEdit = (sortEditsAsc (fixes.map toEdit)).reverse := by
  have hperm : List.Perm ((sortFixesDesc fixes).map toEdit)
      ((sortEditsAsc (fixes.map toEdit)).reverse) := by
    have p1 : List.Perm ((sortFixesDesc fixes).map toEdit) (fixes.map toEdit) :=
      (List.perm_insertionSort fixDescLE fixes).map toEdit
    have p2 : List.Perm ((sortEditsAsc (fixes.map toEdit)).reverse) (fixes.map toEdit) :=
      (List.reverse_perm _).trans (List.perm_insertionSort editAscLE _)
    exact p1.trans p2.symm
  have hsD : List.Pairwise fixDescLE (sortFixesDesc fixes) :=
    List.sorted_insertionSort fixDescLE fixes
  have hneD : List.Pairwise (fun f g => fixStartL f ≠ fixStartL g)
      (sortFixesDesc fixes) :=
    ((List.perm_insertionSort fixDescLE fixes).pairwise_iff
      (fun h => Ne.symm h)).mpr hne
  have h1D : ∀ f ∈ sortFixesDesc fixes, 1 ≤ fixStartL f := fun f hf =>
    hv1 f ((List.mem_insertionSort fixDescLE).mp hf)
  have hstrict : List.Pairwise (fun f g => fixStartL g < fixStartL f)
      (sortFixesDesc fixes) := by
    refine (hsD.and hneD).imp ?_
    intro f g hfg
    have hle : fixStartL g ≤ fixStartL f := hfg.1
    exact lt_of_le_of_ne hle (Ne.symm hfg.2)
  have hsort1 : List.Sorted editSGT ((sortFixesDesc fixes).map toEdit) := by
    show List.Pairwise editSGT ((sortFixesDesc fixes).map toEdit)
    rw [List.pairwise_map]
    refine hstrict.imp_of_mem ?_
    intro f g hf hg hlt
    have h1g := h1D g hg
    show (toEdit g).s < (toEdit f).s
    simp only [toEdit]
    omega
  have hsA : List.Pairwise editAscLE (sortEditsAsc (fixes.map toEdit)) :=
    List.sorted_insertionSort editAscLE _
  have hneM : List.Pairwise (fun a b : Edit => a.s ≠ b.s) (fixes.map toEdit) := by
    rw [List.pairwise_map]
    refine hne.imp_of_mem ?_
    intro f g hf hg hfg
    have h1f := hv1 f hf
    have h1g := hv1 g hg
    show (toEdit f).s ≠ (toEdit g).s
    simp only [toEdit]
    omega
  have hneA : List.Pairwise (fun a b : Edit => a.s ≠ b.s)
      (sortEditsAsc (fixes.map toEdit)) :=
    ((List.perm_insertionSort editAscLE _).pairwise_iff (fun h => Ne.symm h)).mpr hneM
  have hsort2 : List.Sorted editSGT ((sortEditsAsc (fixes.map toEdit)).reverse) := by
    show List.Pairwise editSGT _
    rw [List.pairwise_reverse]
    refine (hsA.and hneA).imp ?_
    intro a b hab
    have hle : a.s ≤ b.s := hab.1
    show a.s < b.s
    exact lt_of_le_of_ne hle hab.2
  exact List.eq_of_perm_of_sorted hperm hsort1 hsort2

/-- C3: for every document and every list of valid, mutually non-overlapping
fixes, `apply_fixes`'s descending pass — one splice per fix against original
line numbers — produces exactly the patched document of the naive reference
implementation that applies the edits one at a time in ascending order,
recomputing line indices after each application. -/
theorem descending_matches_naive (l : Doc) (fixes : List Fix)
    (hv : ∀ f ∈ fixes, FixValid l.length f)
    (hd : List.Pairwise FixDisjoint fixes) :
    patchLines l fixes = .ok (naiveApplyFixes l fixes) := by
  rw [patchLines_valid l fixes hv]
  congr 1
  have hv1 : ∀ f ∈ fixes, 1 ≤ fixStartL f := fun f hf => (hv f hf).2.1
  have hne : List.Pairwise (fun f g => fixStartL f ≠ fixStartL g) fixes := by
    refine hd.imp_of_mem ?_
    intro f g hf hg hfg
    have h1 := (hv f hf).2.2.1
    have h2 := (hv g hg).2.2.1
    rcases hfg with h | h
    · intro heq
      omega
    · intro heq
      omega
  rw [sortFixesDesc_map_toEdit fixes hv1 hne]
  have hvalA : ∀ ed ∈ sortEditsAsc (fixes.map toEdit),
      0 ≤ ed.s ∧ ed.s ≤ ed.e ∧ ed.e - 0 < l.length := by
    intro ed hed
    have hed2 : ed ∈ fixes.map toEdit := (List.mem_insertionSort editAscLE).mp hed
    obtain ⟨f, hf, rfl⟩ := List.mem_map.mp hed2
    obtain ⟨_, hf1, hfse, hfen⟩ := hv f hf
    simp only [toEdit]
    omega
  have hascA : List.Pairwise (fun a b : Edit => a.e < b.s)
      (sortEditsAsc (fixes.map toEdit)) := by
    have hsA : List.Pairwise editAscLE (sortEditsAsc (fixes.map toEdit)) :=
      List.sorted_insertionSort editAscLE _
    have hdisM : List.Pairwise (fun a b : Edit => a.e < b.s ∨ b.e < a.s)
        (fixes.map toEdit) := by
      rw [List.pairwise_map]
      refine hd.imp_of_mem ?_
      intro f g hf hg hfg
      obtain ⟨_, hf1, hfse, hfen⟩ := hv f hf
      obtain ⟨_, hg1, hgse, hgen⟩ := hv g hg
      show (toEdit f).e < (toEdit g).s ∨ (toEdit g).e < (toEdit f).s
      simp only [toEdit]
      rcases hfg with h | h
      · left
        omega
      · right
        omega
    have hdisA : List.Pairwise (fun a b : Edit => a.e < b.s ∨ b.e < a.s)
        (sortEditsAsc (fixes.map toEdit)) :=
      ((List.perm_insertionSort editAscLE _).pairwise_iff
        (fun h => Or.symm h)).mpr hdisM
    refine (hsA.and hdisA).imp_of_mem ?_
    intro a b ha hb hab
    have hle : a.s ≤ b.s := hab.1
    have hbse := (hvalA b hb).2.1
    rcases hab.2 with h | h
    · exact h
    · omega
  have hcode := codeRun_eq_segApply (sortEditsAsc (fixes.map toEdit)) 0 l hascA hvalA
  rw [shiftEdits_zero] at hcode
  have hnaive := naiveAux_eq_segApply (sortEditsAsc (fixes.map toEdit)) 0 [] l 0
    hascA hvalA (by simp)
  rw [List.nil_append, List.nil_append] at hnaive
  rw [hcode]
  unfold naiveApplyFixes
  exact hnaive.symm

theorem descending_matches_naive_witness :
    patchLines [['a', '\n'], ['b', '\n'], ['c', '\n'], ['d', '\n'], ['e']]
        [⟨some 5, none, ['z']⟩, ⟨some 2, some 3, ['u', '\n', 'v', '\n', 'w', '\n']⟩] =
      .ok (naiveApplyFixes [['a', '\n'], ['b', '\n'], ['c', '\n'], ['d', '\n'], ['e']]
        [⟨some 5, none, ['z']⟩, ⟨some 2, some 3, ['u', '\n', 'v', '\n', 'w', '\n']⟩]) :=
  descending_matches_naive
    [['a', '\n'], ['b', '\n'], ['c', '\n'], ['d', '\n'], ['e']]
    [⟨some 5, none, ['z']⟩, ⟨some 2, some 3, ['u', '\n', 'v', '\n', 'w', '\n']⟩]
    (by decide) (by decide)

theorem terminator_preservation_witness :
    (∃ d, patchLines [['a', '\n'], ['b']] [⟨some 1, some 1, ['Z', '\n']⟩] = .ok d ∧
      d.getLast? = [['a', '\n'], ['b']].getLast?) ∧
      (∃ d, patchLines [['a', '\n'], ['b']] [⟨some 2, some 2, ['W']⟩] = .ok d ∧
        d.getLast? = some ['W']) ∧
      ((inheritNL [['u']] ['v', '\n']).getLast?).map endsWithNL =
        some (endsWithNL ['v', '\n']) := by
  have h := terminator_preservation
  exact ⟨h.1 [['a', '\n'], ['b']] ⟨some 1, some 1, ['Z', '\n']⟩ (by decide) (by decide),
    h.2.1 [['a', '\n'], ['b']] ⟨some 2, some 2, ['W']⟩ ['W'] (by decide) (by decide)
      (by decide) rfl rfl,
    h.2.2 [['u']] ['v', '\n'] ['u'] rfl rfl⟩

end MidnightAI
